import Mathlib

/-!
# A verification development for the `dataloader` batching coordinator

This file gives a shallow embedding, in Lean 4, of the two batching
coordinators of the `dataloader` Rust crate:

* the **cached loader** (`src/cached.rs`): shared state is a memoizing
  `completed` cache (a `HashMap K V` by default) plus a `pending : HashSet K`
  of keys awaiting dispatch;
* the **non-cached loader** (`src/non_cached.rs`): shared state maps fresh
  `RequestId`s to queued keys (`pending`) and to delivered results
  (`completed`).

Hash maps and hash sets are embedded as association lists / lists with the
lookup-first semantics of the Rust types; the user batch function is an
opaque function from a key list to the returned mapping, rendered as an
association list.  An execution of a public operation is embedded as a pure
state transformer that additionally records the trace of batch-function
invocations (each entry is the key vector passed to one call).  `await`
points are modelled sequentially: the wait strategy is a no-op for a single
caller, which is the execution the theorems below describe.  A Rust `panic!`
(`unwrap`/`expect`) is rendered as `Option.none` in the operation's result.
-/

set_option autoImplicit false

namespace Dataloader

variable {A B K V R W : Type}

/-! ## Association-list maps (embedding of `HashMap`)

`mapInsert` mirrors `HashMap::insert` (replace any existing binding),
`mapLookup` mirrors `HashMap::get`, `mapRemove` mirrors `HashMap::remove`.
-/

/-- Lookup in an association list: the binding of the first matching key. -/
def mapLookup [DecidableEq A] (c : List (A × B)) (a : A) : Option B :=
  match c with
  | [] => none
  | (a', b) :: rest => if a' = a then some b else mapLookup rest a

/-- Remove a key's bindings from an association list, as `HashMap::remove`. -/
def mapRemove [DecidableEq A] (c : List (A × B)) (a : A) : List (A × B) :=
  match c with
  | [] => []
  | (a', b) :: rest => if a' = a then mapRemove rest a else (a', b) :: mapRemove rest a

/-- Insert-or-replace into an association list, as `HashMap::insert`. -/
def mapInsert [DecidableEq A] (c : List (A × B)) (a : A) (b : B) : List (A × B) :=
  (a, b) :: mapRemove c a

/-- Insert every pair of `l` into `c` in order, as the Rust loop
`for (k, v) in load_ret { completed.insert(k, v) }`. -/
def insertAll [DecidableEq A] (c l : List (A × B)) : List (A × B) :=
  l.foldl (fun acc p => mapInsert acc p.1 p.2) c

theorem mapLookup_nil [DecidableEq A] (a : A) :
    mapLookup ([] : List (A × B)) a = none := rfl

theorem mapLookup_cons [DecidableEq A] (a' : A) (b : B) (c : List (A × B)) (a : A) :
    mapLookup ((a', b) :: c) a = if a' = a then some b else mapLookup c a := rfl

theorem mapLookup_mapRemove [DecidableEq A] (c : List (A × B)) (a : A) (k : A) :
    mapLookup (mapRemove c a) k = if a = k then none else mapLookup c k := by
  induction c with
  | nil => simp [mapRemove, mapLookup]
  | cons p rest ih =>
    obtain ⟨a', b⟩ := p
    by_cases ha : a' = a
    · subst ha
      by_cases hk : a' = k
      · subst hk
        simpa [mapRemove, mapLookup] using ih
      · simpa [mapRemove, mapLookup, hk] using ih
    · by_cases hk : a' = k
      · subst hk
        have hak : ¬ a = a' := fun hh => ha hh.symm
        simp [mapRemove, ha, mapLookup, hak]
      · simpa [mapRemove, ha, mapLookup, hk] using ih

theorem mapLookup_mapInsert [DecidableEq A] (c : List (A × B)) (a : A) (b : B) (k : A) :
    mapLookup (mapInsert c a b) k = if a = k then some b else mapLookup c k := by
  unfold mapInsert
  rw [mapLookup_cons]
  by_cases h : a = k
  · simp [h]
  · simp [h, mapLookup_mapRemove c a k]

theorem mapLookup_insertAll_isSome [DecidableEq A] (l c : List (A × B)) (k : A) :
    (mapLookup (insertAll c l) k).isSome
      ↔ k ∈ l.map Prod.fst ∨ (mapLookup c k).isSome := by
  induction l generalizing c with
  | nil => simp [insertAll]
  | cons p rest ih =>
    obtain ⟨a, b⟩ := p
    show (mapLookup (insertAll (mapInsert c a b) rest) k).isSome ↔ _
    rw [ih]
    by_cases h : a = k
    · subst h
      simp [mapLookup_mapInsert]
    · have hk : ¬ k = a := fun hk => h hk.symm
      simp [mapLookup_mapInsert, h, hk]

/-- `isSome`-monotonicity between two maps: every key bound in the first is
bound in the second.  Cache updates only ever add or overwrite bindings. -/
def MonoS [DecidableEq A] (c c' : List (A × B)) : Prop :=
  ∀ k : A, (mapLookup c k).isSome → (mapLookup c' k).isSome

theorem MonoS.refl [DecidableEq A] (c : List (A × B)) : MonoS c c :=
  fun _ h => h

theorem MonoS.trans [DecidableEq A] {c₁ c₂ c₃ : List (A × B)}
    (h₁ : MonoS c₁ c₂) (h₂ : MonoS c₂ c₃) : MonoS c₁ c₃ :=
  fun k h => h₂ k (h₁ k h)

theorem MonoS.insert [DecidableEq A] (c : List (A × B)) (a : A) (b : B) :
    MonoS c (mapInsert c a b) := by
  intro k h
  rw [mapLookup_mapInsert]
  by_cases ha : a = k <;> simp [ha, h]

theorem MonoS.insertAll [DecidableEq A] (c l : List (A × B)) :
    MonoS c (insertAll c l) := by
  induction l generalizing c with
  | nil => exact MonoS.refl c
  | cons p rest ih =>
    exact (MonoS.insert c p.1 p.2).trans (ih (mapInsert c p.1 p.2))

/-! ## Cached loader (`src/cached.rs`)

`CState` embeds `State { completed: C, pending: HashSet<K> }` with the
default `HashMap` cache; `pending` is a duplicate-free list.  The batch
function `F : List K → List (K × V)` stands for
`BatchFn::load(keys: &[K]) -> HashMap<K, V>`.  Every operation returns,
besides its Rust return value, the final state and the trace of batch calls
(the key vector of each `load_fn.load(keys)` invocation, in order).
-/

/-- The cached loader's shared state (`State` in `cached.rs`). -/
structure CState (K V : Type) where
  completed : List (K × V)
  pending : List K
  deriving Repr, DecidableEq

/-- One dispatch (`cached.rs` lines 154-160 / 177-183 / 208-214 / 226-232):
drain all of `pending` into a key vector, call the batch function on it, and
insert every returned pair into `completed`.  Returns the new state and the
key vector that was passed to the batch function. -/
def dispatch [DecidableEq K] (F : List K → List (K × V)) (st : CState K V) :
    CState K V × List K :=
  ({ completed := insertAll st.completed (F st.pending), pending := [] }, st.pending)

/-- `state.completed.get(&key).cloned().ok_or(NotFound)` (`cached.rs` 161, 186):
the `Except` error carries the key named in the not-found message. -/
def lookupOrNotFound [DecidableEq K] (st : CState K V) (key : K) : Except K V :=
  match mapLookup st.completed key with
  | some v => Except.ok v
  | none => Except.error key

/-- Phase 2 of `try_load` (`cached.rs` 169-189), entered after the wait:
re-check `completed`, dispatch if `pending` is non-empty, then look the key
up in `completed` or fail with not-found. -/
def tryLoadPhase2 [DecidableEq K] (F : List K → List (K × V))
    (st : CState K V) (key : K) : Except K V × CState K V × List (List K) :=
  match mapLookup st.completed key with
  | some v => (Except.ok v, st, [])
  | none =>
    if st.pending.isEmpty then
      (lookupOrNotFound st key, st, [])
    else
      let d := dispatch F st
      (lookupOrNotFound d.1 key, d.1, [d.2])

/-- `Loader::try_load` (`cached.rs` 145-190), for one caller run to
completion with no interference at the await points: serve from `completed`
if possible; otherwise enqueue the key (unless already pending) and dispatch
immediately when `|pending|` reaches `B = max_batch_size`; otherwise wait
and run phase 2. -/
def tryLoad [DecidableEq K] (B : Nat) (F : List K → List (K × V))
    (st : CState K V) (key : K) : Except K V × CState K V × List (List K) :=
  match mapLookup st.completed key with
  | some v => (Except.ok v, st, [])
  | none =>
    if key ∈ st.pending then
      tryLoadPhase2 F st key
    else
      let st1 : CState K V := { st with pending := key :: st.pending }
      if B ≤ st1.pending.length then
        let d := dispatch F st1
        (lookupOrNotFound d.1 key, d.1, [d.2])
      else
        tryLoadPhase2 F st1 key

/-- `Loader::load` (`cached.rs` 192-194): `try_load(key).unwrap_or_else(panic)`.
The panic is rendered as `none`. -/
def cachedLoad [DecidableEq K] (B : Nat) (F : List K → List (K × V))
    (st : CState K V) (key : K) : Option V × CState K V × List (List K) :=
  let out := tryLoad B F st key
  (out.1.toOption, out.2.1, out.2.2)

/-- One iteration of the enqueue loop of `try_load_many` (`cached.rs`
200-218): serve an already-completed key into `ret`, or enqueue it
(dispatching when `|pending|` reaches `B`) and push it onto `rest`. -/
def tlmStep [DecidableEq K] (B : Nat) (F : List K → List (K × V))
    (st : CState K V) (key : K) (ret : List (K × V)) (rest : List K)
    (calls : List (List K)) :
    CState K V × List (K × V) × List K × List (List K) :=
  match mapLookup st.completed key with
  | some v => (st, mapInsert ret key v, rest, calls)
  | none =>
    if key ∈ st.pending then
      (st, ret, rest ++ [key], calls)
    else
      let st1 : CState K V := { st with pending := key :: st.pending }
      if B ≤ st1.pending.length then
        let d := dispatch F st1
        (d.1, ret, rest ++ [key], calls ++ [d.2])
      else
        (st1, ret, rest ++ [key], calls)

/-- The enqueue loop of `try_load_many` (`cached.rs` 200-218): `tlmStep`
on each requested key in order. -/
def tlmLoop [DecidableEq K] (B : Nat) (F : List K → List (K × V))
    (st : CState K V) (keys : List K) (ret : List (K × V)) (rest : List K)
    (calls : List (List K)) :
    CState K V × List (K × V) × List K × List (List K) :=
  match keys with
  | [] => (st, ret, rest, calls)
  | key :: ks =>
    let s := tlmStep B F st key ret rest calls
    tlmLoop B F s.1 ks s.2.1 s.2.2.1 s.2.2.2

/-- The result-collection loop of `try_load_many` (`cached.rs` 235-242):
each key of `rest` is looked up in `completed`; the first miss aborts the
whole call with its not-found error (the `?` operator). -/
def collect [DecidableEq K] (completed : List (K × V)) (rest : List K)
    (ret : List (K × V)) : Except K (List (K × V)) :=
  match rest with
  | [] => Except.ok ret
  | k :: rs =>
    match mapLookup completed k with
    | none => Except.error k
    | some v => collect completed rs (mapInsert ret k v)

/-- `Loader::try_load_many` (`cached.rs` 196-246), one caller, sequential:
the enqueue loop, the (no-op) wait, then — only if `rest` is non-empty — a
post-wait dispatch of any pending keys followed by collection. -/
def tryLoadMany [DecidableEq K] (B : Nat) (F : List K → List (K × V))
    (st : CState K V) (keys : List K) :
    Except K (List (K × V)) × CState K V × List (List K) :=
  let out := tlmLoop B F st keys [] [] []
  let st1 := out.1
  let ret := out.2.1
  let rest := out.2.2.1
  let calls := out.2.2.2
  if rest.isEmpty then
    (Except.ok ret, st1, calls)
  else
    let d :=
      if st1.pending.isEmpty then (st1, calls)
      else
        let d0 := dispatch F st1
        (d0.1, calls ++ [d0.2])
    (collect d.1.completed rest ret, d.1, d.2)

/-- `Loader::load_many` (`cached.rs` 248-252): `try_load_many` with the
not-found error escalated to a panic (`none`). -/
def cachedLoadMany [DecidableEq K] (B : Nat) (F : List K → List (K × V))
    (st : CState K V) (keys : List K) :
    Option (List (K × V)) × CState K V × List (List K) :=
  let out := tryLoadMany B F st keys
  (out.1.toOption, out.2.1, out.2.2)

/-- `Loader::prime` (`cached.rs` 254-257): insert into `completed` only. -/
def prime [DecidableEq K] (st : CState K V) (key : K) (val : V) : CState K V :=
  { st with completed := mapInsert st.completed key val }

/-- `Loader::prime_many` (`cached.rs` 259-264). -/
def primeMany [DecidableEq K] (st : CState K V) (kvs : List (K × V)) : CState K V :=
  kvs.foldl (fun s p => prime s p.1 p.2) st

/-- `Loader::clear` (`cached.rs` 266-269): remove from `completed` only. -/
def clear [DecidableEq K] (st : CState K V) (key : K) : CState K V :=
  { st with completed := mapRemove st.completed key }

/-- `Loader::clear_all` (`cached.rs` 271-274). -/
def clearAll (st : CState K V) : CState K V :=
  { st with completed := [] }

/-- The spec's cached-state invariant `pending ∩ keys(completed) = ∅`. -/
def disjointPC [DecidableEq K] (st : CState K V) : Prop :=
  ∀ k ∈ st.pending, mapLookup st.completed k = none

instance disjointPC.instDecidable [DecidableEq K] [DecidableEq V] (st : CState K V) :
    Decidable (disjointPC st) :=
  inferInstanceAs (Decidable (∀ k ∈ st.pending, mapLookup st.completed k = none))

/-- Reachable-state invariant of the cached loader: strictly fewer pending
keys than `max_batch_size` (a full pending set is drained at once), and no
duplicates (`pending` is a `HashSet`). -/
def Inv (B : Nat) (st : CState K V) : Prop :=
  st.pending.length < B ∧ st.pending.Nodup

/-! ## Non-cached loader (`src/non_cached.rs`)

`NCState` embeds `State { completed: HashMap<RequestId, Result<V, E>>,
pending: HashMap<RequestId, K>, id_seq: RequestId }`.  The loader never
inspects the `Result<V, E>` it stores, so the result type is kept opaque as
`R`.  The batch function `F : List K → List (K × R)` stands for
`BatchFn::load(keys) -> HashMap<K, Result<V, E>>`.  A panic (a batch result
omitting a drained key, or a failing `expect`) is rendered as `none`.
-/

/-- The non-cached loader's shared state (`State` in `non_cached.rs`). -/
structure NCState (K R : Type) where
  completed : List (Nat × R)
  pending : List (Nat × K)
  idSeq : Nat
  deriving Repr, DecidableEq

/-- The credit loop of a non-cached dispatch (`non_cached.rs` 92-100 /
126-134): for every `(request_id, key)` of the drained batch, insert into
`completed` the batch result for that key, cloned; a key absent from the
batch result is a panic (`none`). -/
def creditAll [DecidableEq K] (ret : List (K × R)) (batch : List (Nat × K))
    (completed : List (Nat × R)) : Option (List (Nat × R)) :=
  match batch with
  | [] => some completed
  | p :: rest =>
    match mapLookup ret p.2 with
    | none => none
    | some r => creditAll ret rest (mapInsert completed p.1 r)

/-- The batch drained by a sequential `load` call: `pending` after this
call's own `(id_seq, key)` insertion (`non_cached.rs` 80, 82, 115). -/
def ncBatch [DecidableEq K] (st : NCState K R) (key : K) : List (Nat × K) :=
  mapInsert st.pending st.idSeq key

/-- The key vector passed to the batch function (`non_cached.rs` 83-88 /
117-122): the distinct set of the batch's values. -/
def ncKeys [DecidableEq K] (st : NCState K R) (key : K) : List K :=
  ((ncBatch st key).map Prod.snd).dedup

/-- `state.completed.remove(&request_id).expect("completed")`
(`non_cached.rs` 101, 137): `none` is the `expect` panic. -/
def ncTake (completed : List (Nat × R)) (rid : Nat) : Option R :=
  mapLookup completed rid

/-- `Loader::load` (`non_cached.rs` 76-138), one caller run sequentially
with no interference: take a fresh request id, enqueue `(id, key)`, dispatch
immediately when `|pending| ≥ max_batch_size`, otherwise wait (no-op here)
and dispatch whatever is pending; finally remove and return this request's
credited result. -/
def ncLoad [DecidableEq K] (B : Nat) (F : List K → List (K × R))
    (st : NCState K R) (key : K) : Option R × NCState K R × List (List K) :=
  let rid := st.idSeq
  let st1 : NCState K R :=
    { completed := st.completed, pending := ncBatch st key,
      idSeq := (st.idSeq + 1) % 2 ^ 64 }
  if B ≤ st1.pending.length then
    match creditAll (F (ncKeys st key)) st1.pending st1.completed with
    | none => (none, { st1 with pending := [] }, [ncKeys st key])
    | some comp =>
      (ncTake comp rid,
       { completed := mapRemove comp rid, pending := [], idSeq := st1.idSeq },
       [ncKeys st key])
  else
    if (mapLookup st1.completed rid).isNone then
      let st2 : NCState K R := { st1 with pending := [] }
      if st1.pending.isEmpty then
        (ncTake st2.completed rid,
         { st2 with completed := mapRemove st2.completed rid }, [])
      else
        match creditAll (F (ncKeys st key)) st1.pending st1.completed with
        | none => (none, st2, [ncKeys st key])
        | some comp =>
          (ncTake comp rid,
           { st2 with completed := mapRemove comp rid }, [ncKeys st key])
    else
      (ncTake st1.completed rid,
       { st1 with completed := mapRemove st1.completed rid }, [])

/-- The accumulator form of `Loader::load_many` (`non_cached.rs` 140-147):
`for key in keys { ret.insert(key, load(key).await) }`. -/
def ncLoadManyAux [DecidableEq K] (B : Nat) (F : List K → List (K × R))
    (st : NCState K R) (keys : List K) (ret : List (K × R)) :
    Option (List (K × R)) × NCState K R × List (List K) :=
  match keys with
  | [] => (some ret, st, [])
  | k :: ks =>
    match ncLoad B F st k with
    | (none, st1, cs) => (none, st1, cs)
    | (some r, st1, cs) =>
      let out := ncLoadManyAux B F st1 ks (mapInsert ret k r)
      (out.1, out.2.1, cs ++ out.2.2)

/-- `Loader::load_many` (`non_cached.rs` 140-147). -/
def ncLoadMany [DecidableEq K] (B : Nat) (F : List K → List (K × R))
    (st : NCState K R) (keys : List K) :
    Option (List (K × R)) × NCState K R × List (List K) :=
  ncLoadManyAux B F st keys []

/-- Modelled from the spec: `load_many` as a *sequential fan-out* — call
`load` on each key in order, threading the state, and pair each key with its
result; the returned map is then the in-order insertion of those pairs. -/
def ncFanOut [DecidableEq K] (B : Nat) (F : List K → List (K × R))
    (st : NCState K R) (keys : List K) :
    Option (List (K × R)) × NCState K R × List (List K) :=
  match keys with
  | [] => (some [], st, [])
  | k :: ks =>
    match ncLoad B F st k with
    | (none, st1, cs) => (none, st1, cs)
    | (some r, st1, cs) =>
      match ncFanOut B F st1 ks with
      | (none, st2, cs2) => (none, st2, cs ++ cs2)
      | (some pairs, st2, cs2) => (some ((k, r) :: pairs), st2, cs ++ cs2)

/-! ## Builder-style configuration (`cached.rs` 115-143)

The wait strategy and the cache are opaque to the configuration methods, so
only the two configurable fields are embedded.  `with_custom_wait_for_work`
is embedded exactly as written in the source: it takes the loader by value
and has no return value (`-> ()`), so the configured loader is dropped. -/

/-- A wait-for-work strategy: the built-in yield-N strategy (`yield_fn(n)`)
or a caller-supplied custom suspending operation, kept opaque as `W`. -/
inductive WaitKind (W : Type) where
  | yieldN (n : Nat)
  | custom (w : W)
  deriving Repr, DecidableEq

/-- The configurable fields of the cached `Loader`. -/
structure LoaderCfg (W : Type) where
  maxBatchSize : Nat
  waitForWork : WaitKind W
  deriving Repr, DecidableEq

/-- `Loader::with_cache` (`cached.rs` 115-122): `max_batch_size: 200`,
`wait_for_work_fn: yield_fn(10)`.  `Loader::new` (`cached.rs` 103-105) is
`with_cache` with a fresh `HashMap` cache. -/
def withCache (W : Type) : LoaderCfg W :=
  { maxBatchSize := 200, waitForWork := WaitKind.yieldN 10 }

/-- `Loader::with_max_batch_size` (`cached.rs` 124-127). -/
def withMaxBatchSize (l : LoaderCfg W) (n : Nat) : LoaderCfg W :=
  { l with maxBatchSize := n }

/-- `Loader::with_yield_count` (`cached.rs` 129-132). -/
def withYieldCount (l : LoaderCfg W) (n : Nat) : LoaderCfg W :=
  { l with waitForWork := WaitKind.yieldN n }

/-- `Loader::with_custom_wait_for_work` (`cached.rs` 137-139), as written in
the source: `pub fn with_custom_wait_for_work(mut self, f: impl WaitForWorkFn)`
has return type `()` — it assigns `self.wait_for_work_fn` and then drops
`self`, so the caller never receives the configured loader. -/
def withCustomWaitForWork (l : LoaderCfg W) (w : W) : Unit :=
  let _updated : LoaderCfg W := { l with waitForWork := WaitKind.custom w }
  ()

/-! ## Basic lemmas about the cached operations -/

theorem insertAll_cons [DecidableEq A] (c : List (A × B)) (p : A × B) (l : List (A × B)) :
    insertAll c (p :: l) = insertAll (mapInsert c p.1 p.2) l := rfl

theorem lookupOrNotFound_error_iff [DecidableEq K] (st : CState K V) (key : K) :
    lookupOrNotFound st key = Except.error key ↔ mapLookup st.completed key = none := by
  unfold lookupOrNotFound
  cases h : mapLookup st.completed key <;> simp

theorem lookupOrNotFound_error_name [DecidableEq K] (st : CState K V) (key e : K)
    (h : lookupOrNotFound st key = Except.error e) : e = key := by
  unfold lookupOrNotFound at h
  cases hl : mapLookup st.completed key <;> rw [hl] at h <;> simp_all

theorem lookupOrNotFound_ok_iff [DecidableEq K] (st : CState K V) (key : K) (v : V) :
    lookupOrNotFound st key = Except.ok v ↔ mapLookup st.completed key = some v := by
  unfold lookupOrNotFound
  cases h : mapLookup st.completed key <;> simp

/-- On a cache miss, a sequential `try_load` performs exactly one dispatch,
whose key vector is `pending` with the requested key adjoined unless it was
already pending. -/
def missKeys [DecidableEq K] (st : CState K V) (key : K) : List K :=
  if key ∈ st.pending then st.pending else key :: st.pending

theorem tryLoad_miss_eq [DecidableEq K] (B : Nat) (F : List K → List (K × V))
    (st : CState K V) (key : K) (hk : mapLookup st.completed key = none) :
    tryLoad B F st key =
      (lookupOrNotFound (CState.mk (insertAll st.completed (F (missKeys st key))) []) key,
       CState.mk (insertAll st.completed (F (missKeys st key))) [],
       [missKeys st key]) := by
  unfold tryLoad
  rw [hk]
  by_cases hp : key ∈ st.pending
  · rw [if_pos hp]
    unfold tryLoadPhase2
    rw [hk]
    have hne : st.pending.isEmpty = false := by
      cases hpe : st.pending with
      | nil => exact absurd (hpe ▸ hp) (List.not_mem_nil key)
      | cons a l => rfl
    rw [hne]
    simp [dispatch, missKeys, hp]
  · rw [if_neg hp]
    by_cases hB : B ≤ (key :: st.pending).length
    · simp only [if_pos hB]
      simp [dispatch, missKeys, hp]
    · simp only [if_neg hB]
      unfold tryLoadPhase2
      rw [show ({ st with pending := key :: st.pending } : CState K V).completed
            = st.completed from rfl, hk]
      simp [dispatch, missKeys, hp]

theorem dispatch_disjoint [DecidableEq K] (F : List K → List (K × V)) (st : CState K V) :
    disjointPC (dispatch F st).1 :=
  fun k hk => absurd hk (List.not_mem_nil k)

/-! ## C2: cache memoization -/

/-- **C2.** For the cached loader, once a key `k` is present in `completed`
(in particular after `prime(k, v)`), `try_load(k)` returns a clone of the
stored value without any new batch-function call and without touching the
state, and `load(k)` returns the same value; this persists until `clear(k)`
or `clear_all()` removes the entry (nothing else removes entries). -/
theorem cached_memoization [DecidableEq K] (B : Nat) (F : List K → List (K × V))
    (st : CState K V) (key : K) (v : V)
    (h : mapLookup st.completed key = some v) :
    tryLoad B F st key = (Except.ok v, st, [])
    ∧ cachedLoad B F st key = (some v, st, [])
    ∧ tryLoad B F (prime st key v) key = (Except.ok v, prime st key v, []) := by
  have h1 : tryLoad B F st key = (Except.ok v, st, []) := by
    unfold tryLoad
    rw [h]
  have hpr : mapLookup (prime st key v).completed key = some v := by
    show mapLookup (mapInsert st.completed key v) key = some v
    rw [mapLookup_mapInsert]
    simp
  have h3 : tryLoad B F (prime st key v) key = (Except.ok v, prime st key v, []) := by
    unfold tryLoad
    rw [hpr]
  refine ⟨h1, ?_, h3⟩
  unfold cachedLoad
  rw [h1]
  rfl

/-- Witness for C2 at a concrete input. -/
theorem cached_memoization_witness :
    mapLookup (CState.mk [(5, 99)] ([] : List Nat)).completed 5 = some 99
    ∧ tryLoad 4 (fun ks => ks.map fun k => (k, k)) (CState.mk [(5, 99)] []) 5
        = (Except.ok 99, CState.mk [(5, 99)] [], []) :=
  ⟨by decide,
   (cached_memoization 4 (fun ks => ks.map fun k => (k, k))
      (CState.mk [(5, 99)] []) 5 99 (by decide)).1⟩

/-! ## C10: `try_load_many` with an empty key vector -/

/-- **C10.** For every cached-loader state — including states where other
callers' keys are sitting in `pending` — `try_load_many([])` returns
`Ok` of the empty map, invokes the batch function zero times, and leaves
`pending` and `completed` exactly as they were. -/
theorem tryLoadMany_nil [DecidableEq K] (B : Nat) (F : List K → List (K × V))
    (st : CState K V) :
    tryLoadMany B F st [] = (Except.ok [], st, []) := rfl

/-! ## C9: builder-style configuration -/

/-- **C9.** Evaluation of the configuration methods: a fresh loader has
`max_batch_size = 200` and the yield-10 wait strategy;
`with_max_batch_size` and `with_yield_count` return the loader with only
that setting replaced; but `with_custom_wait_for_work`, as written in the
source, returns `()` — it consumes the loader and never hands the
configured loader back. -/
theorem builder_config_eval :
    withCache Nat = LoaderCfg.mk 200 (WaitKind.yieldN 10)
    ∧ withMaxBatchSize (withCache Nat) 5 = LoaderCfg.mk 5 (WaitKind.yieldN 10)
    ∧ withYieldCount (withCache Nat) 3 = LoaderCfg.mk 200 (WaitKind.yieldN 3)
    ∧ withMaxBatchSize (LoaderCfg.mk 7 (WaitKind.custom 1)) 9
        = LoaderCfg.mk 9 (WaitKind.custom 1)
    ∧ withYieldCount (LoaderCfg.mk 7 (WaitKind.custom 1)) 9
        = LoaderCfg.mk 7 (WaitKind.yieldN 9)
    ∧ withCustomWaitForWork (withCache Nat) 7 = () :=
  ⟨rfl, rfl, rfl, rfl, rfl, rfl⟩

/-! ## C3: cached not-found behaviour -/

/-- **C3.** For a key not in the cache, the sequential `try_load(k)` drains
`k` in exactly one dispatch (on the key vector `missKeys`), and returns the
`NotFound` error naming `k` iff the batch function's returned mapping
omitted `k` for that dispatch; `load(k)` panics (`none`) in exactly the case
`try_load` returns `NotFound`, and otherwise returns the value `try_load`
returns. -/
theorem tryLoad_notFound_iff [DecidableEq K] (B : Nat) (F : List K → List (K × V))
    (st : CState K V) (key : K) (hk : mapLookup st.completed key = none) :
    ((tryLoad B F st key).1 = Except.error key
        ↔ key ∉ (F (missKeys st key)).map Prod.fst)
    ∧ ((cachedLoad B F st key).1 = none ↔ (tryLoad B F st key).1 = Except.error key)
    ∧ (∀ v : V, (cachedLoad B F st key).1 = some v
        ↔ (tryLoad B F st key).1 = Except.ok v) := by
  have hrun := tryLoad_miss_eq B F st key hk
  have hfst : (tryLoad B F st key).1
      = lookupOrNotFound (CState.mk (insertAll st.completed (F (missKeys st key))) []) key := by
    rw [hrun]
  have hiff : (tryLoad B F st key).1 = Except.error key
      ↔ key ∉ (F (missKeys st key)).map Prod.fst := by
    rw [hfst, lookupOrNotFound_error_iff]
    constructor
    · intro hnone hmem
      have := (mapLookup_insertAll_isSome (F (missKeys st key)) st.completed key).mpr
        (Or.inl hmem)
      rw [show mapLookup (CState.mk (insertAll st.completed (F (missKeys st key))) []).completed key
            = mapLookup (insertAll st.completed (F (missKeys st key))) key from rfl] at hnone
      rw [hnone] at this
      exact absurd this (by simp)
    · intro hmem
      cases hsome : mapLookup (CState.mk (insertAll st.completed (F (missKeys st key))) []).completed key with
      | none => rfl
      | some v =>
        have := (mapLookup_insertAll_isSome (F (missKeys st key)) st.completed key).mp
          (by rw [show mapLookup (insertAll st.completed (F (missKeys st key))) key
                    = mapLookup (CState.mk (insertAll st.completed (F (missKeys st key))) []).completed key from rfl,
                  hsome]; rfl)
        rcases this with h1 | h2
        · exact absurd h1 hmem
        · rw [hk] at h2
          exact absurd h2 (by simp)
  refine ⟨hiff, ?_, ?_⟩
  · show (tryLoad B F st key).1.toOption = none ↔ _
    rw [hfst]
    cases hlk : mapLookup (CState.mk (insertAll st.completed (F (missKeys st key))) []).completed key with
    | none =>
      have he : lookupOrNotFound (CState.mk (insertAll st.completed (F (missKeys st key))) []) key
          = Except.error key := (lookupOrNotFound_error_iff _ _).mpr hlk
      rw [he]
      simp [Except.toOption]
    | some v =>
      have ho : lookupOrNotFound (CState.mk (insertAll st.completed (F (missKeys st key))) []) key
          = Except.ok v := (lookupOrNotFound_ok_iff _ _ _).mpr hlk
      rw [ho]
      simp [Except.toOption]
  · intro v
    show (tryLoad B F st key).1.toOption = some v ↔ _
    rw [hfst]
    cases hlk : mapLookup (CState.mk (insertAll st.completed (F (missKeys st key))) []).completed key with
    | none =>
      have he : lookupOrNotFound (CState.mk (insertAll st.completed (F (missKeys st key))) []) key
          = Except.error key := (lookupOrNotFound_error_iff _ _).mpr hlk
      rw [he]
      simp [Except.toOption]
    | some w =>
      have ho : lookupOrNotFound (CState.mk (insertAll st.completed (F (missKeys st key))) []) key
          = Except.ok w := (lookupOrNotFound_ok_iff _ _ _).mpr hlk
      rw [ho]
      simp [Except.toOption]

/-- Witness for C3 at a concrete input: an empty-returning batch function
leaves key `1337` unresolved, so `try_load` reports `NotFound` and `load`
panics. -/
theorem tryLoad_notFound_iff_witness :
    mapLookup (CState.mk ([] : List (Nat × Nat)) []).completed 1337 = none
    ∧ ((tryLoad 4 (fun _ => []) (CState.mk ([] : List (Nat × Nat)) []) 1337).1 = Except.error 1337
        ↔ 1337 ∉ (((fun (_ : List Nat) => ([] : List (Nat × Nat)))
            (missKeys (CState.mk ([] : List (Nat × Nat)) []) 1337)).map Prod.fst)) :=
  ⟨by decide,
   (tryLoad_notFound_iff 4 (fun _ => []) (CState.mk ([] : List (Nat × Nat)) [])
      1337 (by decide)).1⟩

/-! ## C4: non-cached panic on omitted key -/

theorem creditAll_eq_none_iff [DecidableEq K] (ret : List (K × R)) :
    ∀ (batch : List (Nat × K)) (c : List (Nat × R)),
    creditAll ret batch c = none ↔ ∃ p ∈ batch, mapLookup ret p.2 = none := by
  intro batch
  induction batch with
  | nil => intro c; simp [creditAll]
  | cons p rest ih =>
    intro c
    cases hlk : mapLookup ret p.2 with
    | none => simp [creditAll, hlk]
    | some r =>
      rw [show creditAll ret (p :: rest) c
            = creditAll ret rest (mapInsert c p.1 r) by simp [creditAll, hlk]]
      rw [ih (mapInsert c p.1 r)]
      constructor
      · rintro ⟨q, hq, hql⟩
        exact ⟨q, List.mem_cons_of_mem p hq, hql⟩
      · rintro ⟨q, hq, hql⟩
        rcases List.mem_cons.mp hq with hq1 | hq2
        · subst hq1
          rw [hlk] at hql
          exact absurd hql (by simp)
        · exact ⟨q, hq2, hql⟩

/-- **C4.** In the non-cached loader, when the batch function's returned
mapping omits any key of the drained batch, the sequential `load` panics
(result `none`) rather than returning a recoverable error.  `hfresh` says
the fresh request id has no stale completed entry (every delivered entry is
removed on delivery). -/
theorem ncLoad_panics_on_omission [DecidableEq K] (B : Nat)
    (F : List K → List (K × R)) (st : NCState K R) (key : K)
    (hfresh : mapLookup st.completed st.idSeq = none)
    (hmiss : ∃ p ∈ ncBatch st key, mapLookup (F (ncKeys st key)) p.2 = none) :
    (ncLoad B F st key).1 = none := by
  have hcr : creditAll (F (ncKeys st key)) (ncBatch st key) st.completed = none :=
    (creditAll_eq_none_iff (F (ncKeys st key)) (ncBatch st key) st.completed).mpr hmiss
  unfold ncLoad
  by_cases hB : B ≤ (ncBatch st key).length
  · simp only [if_pos hB, hcr]
  · have hio : (mapLookup st.completed st.idSeq).isNone = true := by
      rw [hfresh]; rfl
    have hnem : (ncBatch st key).isEmpty = false := by
      unfold ncBatch mapInsert
      rfl
    simp only [if_neg hB, hio, if_pos, hnem, Bool.false_eq_true, if_false, hcr]

/-- Witness for C4 at a concrete input: an empty-returning batch function
makes the non-cached `load(3)` panic. -/
theorem ncLoad_panics_on_omission_witness :
    mapLookup (NCState.mk ([] : List (Nat × Nat)) ([] : List (Nat × Nat)) 0).completed 0 = none
    ∧ (ncLoad 4 (fun _ => [])
        (NCState.mk ([] : List (Nat × Nat)) ([] : List (Nat × Nat)) 0) 3).1 = none :=
  ⟨by decide,
   ncLoad_panics_on_omission 4 (fun _ => [])
     (NCState.mk ([] : List (Nat × Nat)) ([] : List (Nat × Nat)) 0) 3 (by decide)
     ⟨(0, 3), by decide, by decide⟩⟩

/-! ## Call-trace lemmas: which key vectors reach the batch function -/

/-- The only batch call phase 2 can make passes all of `pending`, and only
when `pending` is non-empty. -/
theorem tryLoadPhase2_calls [DecidableEq K] (F : List K → List (K × V))
    (st : CState K V) (key : K) (c : List K)
    (hc : c ∈ (tryLoadPhase2 F st key).2.2) :
    c = st.pending ∧ st.pending ≠ [] := by
  unfold tryLoadPhase2 at hc
  cases hlk : mapLookup st.completed key with
  | some v => rw [hlk] at hc; exact absurd hc (List.not_mem_nil c)
  | none =>
    rw [hlk] at hc
    cases hpe : st.pending.isEmpty with
    | true => rw [hpe] at hc; simp at hc
    | false =>
      rw [hpe] at hc
      rw [if_neg (by simp)] at hc
      have hce : c = st.pending := List.mem_singleton.mp hc
      refine ⟨hce, ?_⟩
      intro hnil
      rw [hnil] at hpe
      exact absurd hpe (by simp)

/-- Every batch call of a sequential `try_load` passes either all of
`pending` (non-empty), or the requested key — not previously pending —
adjoined to `pending`. -/
theorem tryLoad_calls [DecidableEq K] (B : Nat) (F : List K → List (K × V))
    (st : CState K V) (key : K) (c : List K)
    (hc : c ∈ (tryLoad B F st key).2.2) :
    (c = st.pending ∧ st.pending ≠ []) ∨ (c = key :: st.pending ∧ key ∉ st.pending) := by
  unfold tryLoad at hc
  cases hlk : mapLookup st.completed key with
  | some v => rw [hlk] at hc; exact absurd hc (List.not_mem_nil c)
  | none =>
    rw [hlk] at hc
    by_cases hp : key ∈ st.pending
    · rw [if_pos hp] at hc
      exact Or.inl (tryLoadPhase2_calls F st key c hc)
    · rw [if_neg hp] at hc
      by_cases hB : B ≤ (key :: st.pending).length
      · rw [if_pos hB] at hc
        simp only [dispatch, List.mem_singleton] at hc
        exact Or.inr ⟨hc, hp⟩
      · rw [if_neg hB] at hc
        have := tryLoadPhase2_calls F { st with pending := key :: st.pending } key c hc
        exact Or.inr ⟨this.1, hp⟩

theorem tlmLoop_nil [DecidableEq K] (B : Nat) (F : List K → List (K × V))
    (st : CState K V) (ret : List (K × V)) (rest : List K) (calls : List (List K)) :
    tlmLoop B F st [] ret rest calls = (st, ret, rest, calls) := rfl

theorem tlmLoop_cons [DecidableEq K] (B : Nat) (F : List K → List (K × V))
    (st : CState K V) (key : K) (ks : List K) (ret : List (K × V)) (rest : List K)
    (calls : List (List K)) :
    tlmLoop B F st (key :: ks) ret rest calls
      = tlmLoop B F (tlmStep B F st key ret rest calls).1 ks
          (tlmStep B F st key ret rest calls).2.1
          (tlmStep B F st key ret rest calls).2.2.1
          (tlmStep B F st key ret rest calls).2.2.2 := rfl

/-- Exhaustive description of one enqueue-loop iteration: serve from cache,
key already pending, enqueue with immediate full-batch dispatch, or plain
enqueue. -/
theorem tlmStep_cases [DecidableEq K] (B : Nat) (F : List K → List (K × V))
    (st : CState K V) (key : K) (ret : List (K × V)) (rest : List K)
    (calls : List (List K)) :
    (∃ v, mapLookup st.completed key = some v
      ∧ tlmStep B F st key ret rest calls = (st, mapInsert ret key v, rest, calls))
    ∨ (mapLookup st.completed key = none ∧ key ∈ st.pending
      ∧ tlmStep B F st key ret rest calls = (st, ret, rest ++ [key], calls))
    ∨ (mapLookup st.completed key = none ∧ key ∉ st.pending
      ∧ B ≤ st.pending.length + 1
      ∧ tlmStep B F st key ret rest calls
          = (CState.mk (insertAll st.completed (F (key :: st.pending))) [],
             ret, rest ++ [key], calls ++ [key :: st.pending]))
    ∨ (mapLookup st.completed key = none ∧ key ∉ st.pending
      ∧ st.pending.length + 1 < B
      ∧ tlmStep B F st key ret rest calls
          = (CState.mk st.completed (key :: st.pending), ret, rest ++ [key], calls)) := by
  cases hlk : mapLookup st.completed key with
  | some v =>
    refine Or.inl ⟨v, rfl, ?_⟩
    unfold tlmStep
    rw [hlk]
  | none =>
    by_cases hp : key ∈ st.pending
    · refine Or.inr (Or.inl ⟨rfl, hp, ?_⟩)
      unfold tlmStep
      rw [hlk, if_pos hp]
    · by_cases hBl : B ≤ st.pending.length + 1
      · refine Or.inr (Or.inr (Or.inl ⟨rfl, hp, hBl, ?_⟩))
        simp only [tlmStep, hlk, if_neg hp, dispatch, List.length_cons]
        rw [if_pos hBl]
      · refine Or.inr (Or.inr (Or.inr ⟨rfl, hp, Nat.lt_of_not_le hBl, ?_⟩))
        simp only [tlmStep, hlk, if_neg hp, dispatch, List.length_cons]
        rw [if_neg hBl]

/-- Pending-length invariant and call-length bounds through the enqueue
loop of `try_load_many`. -/
theorem tlmLoop_len [DecidableEq K] (B : Nat) (F : List K → List (K × V)) (hB : 1 ≤ B) :
    ∀ (keys : List K) (st : CState K V) (ret : List (K × V)) (rest : List K)
      (calls : List (List K)),
    st.pending.length < B → (∀ c ∈ calls, 1 ≤ c.length ∧ c.length ≤ B) →
    (tlmLoop B F st keys ret rest calls).1.pending.length < B
    ∧ ∀ c ∈ (tlmLoop B F st keys ret rest calls).2.2.2, 1 ≤ c.length ∧ c.length ≤ B := by
  intro keys
  induction keys with
  | nil => intro st ret rest calls hlen hcalls; exact ⟨hlen, hcalls⟩
  | cons key ks ih =>
    intro st ret rest calls hlen hcalls
    rw [tlmLoop_cons]
    rcases tlmStep_cases B F st key ret rest calls with
      ⟨v, _, hs⟩ | ⟨_, _, hs⟩ | ⟨_, _, hBl, hs⟩ | ⟨_, _, hBl, hs⟩ <;> rw [hs]
    · exact ih st (mapInsert ret key v) rest calls hlen hcalls
    · exact ih st ret (rest ++ [key]) calls hlen hcalls
    · refine ih _ ret (rest ++ [key]) (calls ++ [key :: st.pending])
        (lt_of_lt_of_le Nat.zero_lt_one hB) ?_
      intro c hcmem
      rcases List.mem_append.mp hcmem with h1 | h2
      · exact hcalls c h1
      · rw [List.mem_singleton.mp h2]
        exact ⟨Nat.succ_le_succ (Nat.zero_le _),
               by simpa [List.length_cons] using hlen⟩
    · exact ih _ ret (rest ++ [key]) calls (by simpa [List.length_cons] using hBl) hcalls

/-- Pending-distinctness invariant and call-distinctness through the
enqueue loop of `try_load_many`. -/
theorem tlmLoop_nodup [DecidableEq K] (B : Nat) (F : List K → List (K × V)) :
    ∀ (keys : List K) (st : CState K V) (ret : List (K × V)) (rest : List K)
      (calls : List (List K)),
    st.pending.Nodup → (∀ c ∈ calls, c.Nodup) →
    (tlmLoop B F st keys ret rest calls).1.pending.Nodup
    ∧ ∀ c ∈ (tlmLoop B F st keys ret rest calls).2.2.2, c.Nodup := by
  intro keys
  induction keys with
  | nil => intro st ret rest calls hnd hcalls; exact ⟨hnd, hcalls⟩
  | cons key ks ih =>
    intro st ret rest calls hnd hcalls
    rw [tlmLoop_cons]
    rcases tlmStep_cases B F st key ret rest calls with
      ⟨v, _, hs⟩ | ⟨_, _, hs⟩ | ⟨_, hp, _, hs⟩ | ⟨_, hp, _, hs⟩ <;> rw [hs]
    · exact ih st (mapInsert ret key v) rest calls hnd hcalls
    · exact ih st ret (rest ++ [key]) calls hnd hcalls
    · refine ih _ ret (rest ++ [key]) (calls ++ [key :: st.pending]) List.nodup_nil ?_
      intro c hcmem
      rcases List.mem_append.mp hcmem with h1 | h2
      · exact hcalls c h1
      · rw [List.mem_singleton.mp h2]
        exact List.nodup_cons.mpr ⟨hp, hnd⟩
    · exact ih _ ret (rest ++ [key]) calls (List.nodup_cons.mpr ⟨hp, hnd⟩) hcalls

/-- Every batch call of a sequential `try_load_many` is either made inside
the enqueue loop or is the single post-wait dispatch of the loop's final
(non-empty) pending set. -/
theorem tryLoadMany_calls [DecidableEq K] (B : Nat) (F : List K → List (K × V))
    (st : CState K V) (keys : List K) (c : List K)
    (hc : c ∈ (tryLoadMany B F st keys).2.2) :
    c ∈ (tlmLoop B F st keys [] [] []).2.2.2
    ∨ (c = (tlmLoop B F st keys [] [] []).1.pending
        ∧ (tlmLoop B F st keys [] [] []).1.pending ≠ []) := by
  unfold tryLoadMany at hc
  simp only [] at hc
  cases hre : (tlmLoop B F st keys [] [] []).2.2.1.isEmpty with
  | true => rw [hre, if_pos rfl] at hc; exact Or.inl hc
  | false =>
    rw [hre, if_neg (by simp)] at hc
    cases hpe : (tlmLoop B F st keys [] [] []).1.pending.isEmpty with
    | true =>
      rw [hpe, if_pos rfl] at hc
      exact Or.inl hc
    | false =>
      rw [hpe, if_neg (by simp)] at hc
      rcases List.mem_append.mp hc with h1 | h2
      · exact Or.inl h1
      · refine Or.inr ⟨List.mem_singleton.mp h2, ?_⟩
        intro hnil
        rw [hnil] at hpe
        exact absurd hpe (by simp)

/-! ## C1: batch-size bound -/

/-- **C1.** For the cached loader with `max_batch_size = B ≥ 1`, from any
reachable state (fewer than `B` pending keys): every batch call made by a
sequential `try_load` or `try_load_many` passes between 1 and `B` keys. -/
theorem batch_size_bound [DecidableEq K] (B : Nat) (F : List K → List (K × V))
    (st : CState K V) (key : K) (keys : List K)
    (hB : 1 ≤ B) (hlen : st.pending.length < B) :
    (∀ c ∈ (tryLoad B F st key).2.2, 1 ≤ c.length ∧ c.length ≤ B)
    ∧ (∀ c ∈ (tryLoadMany B F st keys).2.2, 1 ≤ c.length ∧ c.length ≤ B) := by
  constructor
  · intro c hc
    rcases tryLoad_calls B F st key c hc with ⟨hce, hne⟩ | ⟨hce, _⟩
    · subst hce
      exact ⟨Nat.succ_le_of_lt (List.length_pos.mpr hne), Nat.le_of_lt hlen⟩
    · subst hce
      exact ⟨Nat.succ_le_succ (Nat.zero_le _), hlen⟩
  · intro c hc
    have hloop := tlmLoop_len B F hB keys st [] [] [] hlen (by intro c hmem; simp at hmem)
    rcases tryLoadMany_calls B F st keys c hc with h1 | ⟨hce, hne⟩
    · exact hloop.2 c h1
    · subst hce
      exact ⟨Nat.succ_le_of_lt (List.length_pos.mpr hne), Nat.le_of_lt hloop.1⟩

/-- Witness for C1 at a concrete input: `B = 2`, one key already pending,
loading another key triggers an immediate full-batch dispatch of 2 keys. -/
theorem batch_size_bound_witness :
    (1 ≤ 2 ∧ (CState.mk ([] : List (Nat × Nat)) [0]).pending.length < 2)
    ∧ (∀ c ∈ (tryLoad 2 (fun ks => ks.map fun k => (k, k))
          (CState.mk ([] : List (Nat × Nat)) [0]) 1).2.2, 1 ≤ c.length ∧ c.length ≤ 2)
    ∧ (∀ c ∈ (tryLoadMany 2 (fun ks => ks.map fun k => (k, k))
          (CState.mk ([] : List (Nat × Nat)) [0]) [1, 2, 3]).2.2,
        1 ≤ c.length ∧ c.length ≤ 2) :=
  ⟨⟨by decide, by decide⟩,
   batch_size_bound 2 (fun ks => ks.map fun k => (k, k))
     (CState.mk ([] : List (Nat × Nat)) [0]) 1 [1, 2, 3] (by decide) (by decide)⟩

/-! ## C5: deduplication and per-request crediting -/

theorem creditAll_lookup_notmem [DecidableEq K] (ret : List (K × R)) :
    ∀ (batch : List (Nat × K)) (c c' : List (Nat × R)),
    creditAll ret batch c = some c' →
    ∀ a : Nat, a ∉ batch.map Prod.fst → mapLookup c' a = mapLookup c a := by
  intro batch
  induction batch with
  | nil =>
    intro c c' hcr a _
    simp only [creditAll, Option.some.injEq] at hcr
    rw [hcr]
  | cons q rest ih =>
    intro c c' hcr a ha
    cases hlk : mapLookup ret q.2 with
    | none => rw [show creditAll ret (q :: rest) c = none by simp [creditAll, hlk]] at hcr; cases hcr
    | some r =>
      rw [show creditAll ret (q :: rest) c = creditAll ret rest (mapInsert c q.1 r) by
            simp [creditAll, hlk]] at hcr
      have hrest : a ∉ rest.map Prod.fst := fun hmem =>
        ha (List.mem_cons_of_mem _ hmem)
      have hne : ¬ q.1 = a := fun hh =>
        ha (hh ▸ List.mem_cons_self q.1 (rest.map Prod.fst))
      rw [ih (mapInsert c q.1 r) c' hcr a hrest, mapLookup_mapInsert, if_neg hne]

theorem creditAll_lookup [DecidableEq K] (ret : List (K × R)) :
    ∀ (batch : List (Nat × K)) (c c' : List (Nat × R)),
    (batch.map Prod.fst).Nodup → creditAll ret batch c = some c' →
    ∀ p ∈ batch, mapLookup c' p.1 = mapLookup ret p.2 := by
  intro batch
  induction batch with
  | nil => intro c c' _ _ p hp; exact absurd hp (List.not_mem_nil p)
  | cons q rest ih =>
    intro c c' hnd hcr p hp
    cases hlk : mapLookup ret q.2 with
    | none => rw [show creditAll ret (q :: rest) c = none by simp [creditAll, hlk]] at hcr; cases hcr
    | some r =>
      rw [show creditAll ret (q :: rest) c = creditAll ret rest (mapInsert c q.1 r) by
            simp [creditAll, hlk]] at hcr
      rw [List.map_cons] at hnd
      have hnd' := List.nodup_cons.mp hnd
      rcases List.mem_cons.mp hp with hq | hmem
      · subst hq
        rw [creditAll_lookup_notmem ret rest (mapInsert c p.1 r) c' hcr p.1 hnd'.1,
            mapLookup_mapInsert, if_pos rfl, hlk]
      · exact ih (mapInsert c q.1 r) c' hnd'.2 hcr p hmem

/-- Every batch call a sequential non-cached `load` makes passes exactly the
deduplicated key set of the drained batch. -/
theorem ncLoad_calls [DecidableEq K] (B : Nat) (F : List K → List (K × R))
    (st : NCState K R) (key : K) (c : List K)
    (hc : c ∈ (ncLoad B F st key).2.2) : c = ncKeys st key := by
  unfold ncLoad at hc
  by_cases hB : B ≤ (ncBatch st key).length
  · rw [if_pos hB] at hc
    cases hcr : creditAll (F (ncKeys st key)) (ncBatch st key) st.completed with
    | none => rw [hcr] at hc; exact List.mem_singleton.mp hc
    | some comp => rw [hcr] at hc; exact List.mem_singleton.mp hc
  · rw [if_neg hB] at hc
    cases hio : (mapLookup st.completed st.idSeq).isNone with
    | false =>
      rw [hio] at hc
      rw [if_neg (by simp)] at hc
      exact absurd hc (List.not_mem_nil c)
    | true =>
      rw [hio, if_pos rfl] at hc
      have hnem : (ncBatch st key).isEmpty = false := rfl
      rw [hnem, if_neg (by simp)] at hc
      cases hcr : creditAll (F (ncKeys st key)) (ncBatch st key) st.completed with
      | none => rw [hcr] at hc; exact List.mem_singleton.mp hc
      | some comp => rw [hcr] at hc; exact List.mem_singleton.mp hc

/-- **C5.** Every batch-function call receives distinct keys, in both
variants: the cached loader's `try_load` and `try_load_many` drain the
duplicate-free pending set (possibly with the fresh key adjoined), and the
non-cached loader's `load` always passes the deduplicated key set of the
drained batch; moreover, after a successful non-cached dispatch every
drained request id is credited with the batch result for its own key. -/
theorem batch_keys_distinct [DecidableEq K] (B : Nat) (F : List K → List (K × V))
    (G : List K → List (K × R)) (st : CState K V) (stN : NCState K R)
    (key keyN : K) (keys : List K)
    (ret : List (K × R)) (batch : List (Nat × K)) (c c' : List (Nat × R))
    (hnd : st.pending.Nodup)
    (hrid : (batch.map Prod.fst).Nodup)
    (hcredit : creditAll ret batch c = some c') :
    (∀ cl ∈ (tryLoad B F st key).2.2, cl.Nodup)
    ∧ (∀ cl ∈ (tryLoadMany B F st keys).2.2, cl.Nodup)
    ∧ (∀ cl ∈ (ncLoad B G stN keyN).2.2, cl = ncKeys stN keyN)
    ∧ (ncKeys stN keyN).Nodup
    ∧ (∀ p ∈ batch, mapLookup c' p.1 = mapLookup ret p.2) := by
  refine ⟨?_, ?_, ?_, ?_, ?_⟩
  · intro cl hcl
    rcases tryLoad_calls B F st key cl hcl with ⟨hce, _⟩ | ⟨hce, hp⟩
    · rw [hce]; exact hnd
    · rw [hce]; exact List.nodup_cons.mpr ⟨hp, hnd⟩
  · intro cl hcl
    have hloop := tlmLoop_nodup B F keys st [] [] [] hnd (by intro x hx; simp at hx)
    rcases tryLoadMany_calls B F st keys cl hcl with h1 | ⟨hce, _⟩
    · exact hloop.2 cl h1
    · rw [hce]; exact hloop.1
  · exact fun cl hcl => ncLoad_calls B G stN keyN cl hcl
  · exact List.nodup_dedup _
  · exact creditAll_lookup ret batch c c' hrid hcredit

/-- Witness for C5 at a concrete input: a cached loader with key `0`
pending, a non-cached loader with two requests carrying the same key `7`
(so the call deduplicates to `[7]`), and a two-request credit. -/
theorem batch_keys_distinct_witness :
    ((CState.mk ([] : List (Nat × Nat)) [0]).pending.Nodup
      ∧ (([(1, 7), (0, 7)] : List (Nat × Nat)).map Prod.fst).Nodup
      ∧ creditAll [(7, 70)] ([(1, 7), (0, 7)] : List (Nat × Nat)) [] =
          some [(0, 70), (1, 70)])
    ∧ (∀ cl ∈ (ncLoad 2 (fun ks => ks.map fun k => (k, 10 * k))
          (NCState.mk ([] : List (Nat × Nat)) [(1, 7)] 0) 7).2.2,
        cl = ncKeys (NCState.mk ([] : List (Nat × Nat)) [(1, 7)] 0) 7)
    ∧ (ncKeys (NCState.mk ([] : List (Nat × Nat)) [(1, 7)] 0) 7).Nodup
    ∧ (∀ p ∈ ([(1, 7), (0, 7)] : List (Nat × Nat)),
        mapLookup [(0, 70), (1, 70)] p.1 = mapLookup [(7, 70)] p.2) :=
  ⟨⟨by decide, by decide, by decide⟩,
   (batch_keys_distinct 2 (fun ks => ks.map fun k => (k, k))
      (fun ks => ks.map fun k => (k, 10 * k))
      (CState.mk ([] : List (Nat × Nat)) [0])
      (NCState.mk ([] : List (Nat × Nat)) [(1, 7)] 0)
      3 7 [1, 2] [(7, 70)] [(1, 7), (0, 7)] [] [(0, 70), (1, 70)]
      (by decide) (by decide) (by decide)).2.2⟩

/-! ## C6: the `pending ∩ keys(completed) = ∅` invariant -/

theorem tryLoadPhase2_disjoint [DecidableEq K] (F : List K → List (K × V))
    (st : CState K V) (key : K) (h : disjointPC st) :
    disjointPC (tryLoadPhase2 F st key).2.1 := by
  unfold tryLoadPhase2
  cases hlk : mapLookup st.completed key with
  | some v => exact h
  | none =>
    cases hpe : st.pending.isEmpty with
    | true => exact h
    | false => exact dispatch_disjoint F st

theorem tryLoad_disjoint [DecidableEq K] (B : Nat) (F : List K → List (K × V))
    (st : CState K V) (key : K) (h : disjointPC st) :
    disjointPC (tryLoad B F st key).2.1 := by
  unfold tryLoad
  cases hlk : mapLookup st.completed key with
  | some v => exact h
  | none =>
    by_cases hp : key ∈ st.pending
    · rw [if_pos hp]; exact tryLoadPhase2_disjoint F st key h
    · rw [if_neg hp]
      have h1 : disjointPC ({ st with pending := key :: st.pending } : CState K V) := by
        intro k hk
        rcases List.mem_cons.mp hk with hk1 | hk2
        · subst hk1; exact hlk
        · exact h k hk2
      by_cases hB : B ≤ (key :: st.pending).length
      · rw [if_pos hB]; exact dispatch_disjoint F _
      · rw [if_neg hB]; exact tryLoadPhase2_disjoint F _ key h1

theorem tlmStep_disjoint [DecidableEq K] (B : Nat) (F : List K → List (K × V))
    (st : CState K V) (key : K) (ret : List (K × V)) (rest : List K)
    (calls : List (List K)) (h : disjointPC st) :
    disjointPC (tlmStep B F st key ret rest calls).1 := by
  rcases tlmStep_cases B F st key ret rest calls with
    ⟨v, _, hs⟩ | ⟨_, _, hs⟩ | ⟨_, _, _, hs⟩ | ⟨hlk, _, _, hs⟩ <;> rw [hs]
  · exact h
  · exact h
  · exact fun k hk => absurd hk (List.not_mem_nil k)
  · intro k hk
    rcases List.mem_cons.mp hk with hk1 | hk2
    · subst hk1; exact hlk
    · exact h k hk2

theorem tlmLoop_disjoint [DecidableEq K] (B : Nat) (F : List K → List (K × V)) :
    ∀ (keys : List K) (st : CState K V) (ret : List (K × V)) (rest : List K)
      (calls : List (List K)),
    disjointPC st → disjointPC (tlmLoop B F st keys ret rest calls).1 := by
  intro keys
  induction keys with
  | nil => intro st ret rest calls h; exact h
  | cons key ks ih =>
    intro st ret rest calls h
    rw [tlmLoop_cons]
    exact ih _ _ _ _ (tlmStep_disjoint B F st key ret rest calls h)

theorem tryLoadMany_disjoint [DecidableEq K] (B : Nat) (F : List K → List (K × V))
    (st : CState K V) (keys : List K) (h : disjointPC st) :
    disjointPC (tryLoadMany B F st keys).2.1 := by
  have hloop := tlmLoop_disjoint B F keys st [] [] [] h
  unfold tryLoadMany
  simp only []
  cases hre : (tlmLoop B F st keys [] [] []).2.2.1.isEmpty with
  | true => exact hloop
  | false =>
    cases hpe : (tlmLoop B F st keys [] [] []).1.pending.isEmpty with
    | true => exact hloop
    | false => exact dispatch_disjoint F _

theorem prime_disjoint [DecidableEq K] (st : CState K V) (key : K) (val : V)
    (h : disjointPC st) (hkp : key ∉ st.pending) :
    disjointPC (prime st key val) := by
  intro k hk
  show mapLookup (mapInsert st.completed key val) k = none
  rw [mapLookup_mapInsert]
  have hne : ¬ key = k := fun hh => hkp (hh ▸ hk)
  rw [if_neg hne]
  exact h k hk

theorem primeMany_disjoint [DecidableEq K] :
    ∀ (kvs : List (K × V)) (st : CState K V),
    disjointPC st → (∀ p ∈ kvs, p.1 ∉ st.pending) →
    disjointPC (primeMany st kvs) := by
  intro kvs
  induction kvs with
  | nil => intro st h _; exact h
  | cons p rest ih =>
    intro st h hmem
    show disjointPC (primeMany (prime st p.1 p.2) rest)
    refine ih (prime st p.1 p.2)
      (prime_disjoint st p.1 p.2 h (hmem p (List.mem_cons_self p rest))) ?_
    intro q hq
    exact hmem q (List.mem_cons_of_mem p hq)

/-- **C6 counterexample.** The claim fails as stated: from the disjoint
state with key `0` pending and an empty cache — reachable by a `try_load(0)`
parked at its wait point — `prime(0, 5)` inserts `0` into `completed`
without touching `pending`, so afterwards `0` lies in both. -/
theorem prime_breaks_disjoint :
    disjointPC (CState.mk ([] : List (Nat × Nat)) [0])
    ∧ ¬ disjointPC (prime (CState.mk ([] : List (Nat × Nat)) [0]) 0 5) := by
  constructor
  · decide
  · decide

/-- **C6 (amended).** For the cached loader, `pending ∩ keys(completed) = ∅`
is preserved by `try_load`, `try_load_many`, `load`, `load_many`, `clear`
and `clear_all`; `prime(key, val)` preserves it only when `key` is not
pending, and `prime_many` only when none of the primed keys is pending. -/
theorem disjoint_invariant_preserved [DecidableEq K] (B : Nat)
    (F : List K → List (K × V)) (st : CState K V) (key : K) (keys : List K)
    (val : V) (kvs : List (K × V)) (h : disjointPC st) :
    disjointPC (tryLoad B F st key).2.1
    ∧ disjointPC (tryLoadMany B F st keys).2.1
    ∧ disjointPC (cachedLoad B F st key).2.1
    ∧ disjointPC (cachedLoadMany B F st keys).2.1
    ∧ disjointPC (clear st key)
    ∧ disjointPC (clearAll st)
    ∧ (key ∉ st.pending → disjointPC (prime st key val))
    ∧ ((∀ p ∈ kvs, p.1 ∉ st.pending) → disjointPC (primeMany st kvs)) := by
  refine ⟨tryLoad_disjoint B F st key h, tryLoadMany_disjoint B F st keys h,
    tryLoad_disjoint B F st key h, tryLoadMany_disjoint B F st keys h, ?_, ?_, ?_, ?_⟩
  · intro k hk
    show mapLookup (mapRemove st.completed key) k = none
    rw [mapLookup_mapRemove]
    by_cases hkk : key = k
    · rw [if_pos hkk]
    · rw [if_neg hkk]; exact h k hk
  · intro k _
    rfl
  · exact prime_disjoint st key val h
  · exact primeMany_disjoint kvs st h

/-- Witness for the amended C6 at a concrete input: priming a key that is
*not* pending preserves disjointness. -/
theorem disjoint_invariant_preserved_witness :
    disjointPC (CState.mk ([(9, 1)] : List (Nat × Nat)) [0])
    ∧ disjointPC (prime (CState.mk ([(9, 1)] : List (Nat × Nat)) [0]) 5 55) :=
  ⟨by decide,
   (disjoint_invariant_preserved 3 (fun ks => ks.map fun k => (k, k))
      (CState.mk ([(9, 1)] : List (Nat × Nat)) [0]) 5 [1, 2] 55 []
      (by decide)).2.2.2.2.2.2.1 (by decide)⟩

/-! ## C8: non-cached `load_many` is a sequential fan-out -/

theorem ncLoadManyAux_eq_fanOut [DecidableEq K] (B : Nat) (F : List K → List (K × R)) :
    ∀ (keys : List K) (st : NCState K R) (ret : List (K × R)),
    ncLoadManyAux B F st keys ret
      = ((ncFanOut B F st keys).1.map (fun ps => insertAll ret ps),
         (ncFanOut B F st keys).2.1, (ncFanOut B F st keys).2.2) := by
  intro keys
  induction keys with
  | nil => intro st ret; rfl
  | cons k ks ih =>
    intro st ret
    show (match ncLoad B F st k with
      | (none, st1, cs) => (none, st1, cs)
      | (some r, st1, cs) =>
        let out := ncLoadManyAux B F st1 ks (mapInsert ret k r)
        (out.1, out.2.1, cs ++ out.2.2)) = _
    rcases hl : ncLoad B F st k with ⟨ro, st1, cs⟩
    cases ro with
    | none =>
      show (none, st1, cs) = _
      rw [show ncFanOut B F st (k :: ks)
            = (none, st1, cs) by unfold ncFanOut; rw [hl]]
      rfl
    | some r =>
      show ((ncLoadManyAux B F st1 ks (mapInsert ret k r)).1,
            (ncLoadManyAux B F st1 ks (mapInsert ret k r)).2.1,
            cs ++ (ncLoadManyAux B F st1 ks (mapInsert ret k r)).2.2) = _
      rw [ih st1 (mapInsert ret k r)]
      rcases hf : ncFanOut B F st1 ks with ⟨po, st2, cs2⟩
      cases po with
      | none =>
        rw [show ncFanOut B F st (k :: ks)
              = (none, st2, cs ++ cs2) by simp only [ncFanOut, hl, hf]]
        rfl
      | some pairs =>
        rw [show ncFanOut B F st (k :: ks)
              = (some ((k, r) :: pairs), st2, cs ++ cs2) by simp only [ncFanOut, hl, hf]]
        rfl

/-- **C8.** The non-cached `load_many(keys)` is exactly the sequential
fan-out over `load`: the state it leaves and the batch calls it makes are
those of calling `load` on each key in order with no shared wait or shared
dispatch, and its returned map (when no call panics) is the in-order
insertion of each key paired with its own `load` result. -/
theorem ncLoadMany_eq_fanOut [DecidableEq K] (B : Nat) (F : List K → List (K × R))
    (st : NCState K R) (keys : List K) :
    ncLoadMany B F st keys
      = ((ncFanOut B F st keys).1.map (fun ps => insertAll [] ps),
         (ncFanOut B F st keys).2.1, (ncFanOut B F st keys).2.2) :=
  ncLoadManyAux_eq_fanOut B F keys st []

/-! ## C7: first-miss policy of `try_load_many` -/

theorem find?_append_cons_false {p : K → Bool} (k : K) (h : p k = false) :
    ∀ (xs ys : List K), (xs ++ k :: ys).find? p = (xs ++ ys).find? p := by
  intro xs ys
  induction xs with
  | nil =>
    show List.find? p (k :: ys) = List.find? p ys
    exact List.find?_cons_of_neg ys (by rw [h]; exact Bool.false_ne_true)
  | cons x xs ih =>
    show List.find? p (x :: (xs ++ k :: ys)) = List.find? p (x :: (xs ++ ys))
    by_cases hx : p x
    · rw [List.find?_cons_of_pos _ hx, List.find?_cons_of_pos _ hx]
    · rw [List.find?_cons_of_neg _ hx, List.find?_cons_of_neg _ hx, ih]

/-- One enqueue-loop step only grows the cache, the served map and the
`rest` vector, and leaves its key either in `rest` or served. -/
theorem tlmStep_spec [DecidableEq K] (B : Nat) (F : List K → List (K × V))
    (st : CState K V) (key : K) (ret : List (K × V)) (rest : List K)
    (calls : List (List K)) :
    MonoS st.completed (tlmStep B F st key ret rest calls).1.completed
    ∧ MonoS ret (tlmStep B F st key ret rest calls).2.1
    ∧ (∀ k ∈ rest, k ∈ (tlmStep B F st key ret rest calls).2.2.1)
    ∧ (key ∈ (tlmStep B F st key ret rest calls).2.2.1
        ∨ ((mapLookup (tlmStep B F st key ret rest calls).2.1 key).isSome
            ∧ (mapLookup (tlmStep B F st key ret rest calls).1.completed key).isSome)) := by
  rcases tlmStep_cases B F st key ret rest calls with
    ⟨v, hlk, hs⟩ | ⟨_, _, hs⟩ | ⟨_, _, _, hs⟩ | ⟨_, _, _, hs⟩ <;> rw [hs]
  · refine ⟨MonoS.refl _, MonoS.insert ret key v, fun k hk => hk, Or.inr ⟨?_, ?_⟩⟩
    · rw [mapLookup_mapInsert, if_pos rfl]; rfl
    · rw [hlk]; rfl
  · exact ⟨MonoS.refl _, MonoS.refl _,
      fun k hk => List.mem_append_left _ hk,
      Or.inl (List.mem_append_right _ (List.mem_singleton.mpr rfl))⟩
  · exact ⟨MonoS.insertAll _ _, MonoS.refl _,
      fun k hk => List.mem_append_left _ hk,
      Or.inl (List.mem_append_right _ (List.mem_singleton.mpr rfl))⟩
  · exact ⟨MonoS.refl _, MonoS.refl _,
      fun k hk => List.mem_append_left _ hk,
      Or.inl (List.mem_append_right _ (List.mem_singleton.mpr rfl))⟩

/-- Through the whole enqueue loop: the cache and the served map only grow,
`rest` only grows, and every requested key ends up in `rest` or served into
both the served map and the cache. -/
theorem tlmLoop_spec [DecidableEq K] (B : Nat) (F : List K → List (K × V)) :
    ∀ (keys : List K) (st : CState K V) (ret : List (K × V)) (rest : List K)
      (calls : List (List K)),
    MonoS st.completed (tlmLoop B F st keys ret rest calls).1.completed
    ∧ MonoS ret (tlmLoop B F st keys ret rest calls).2.1
    ∧ (∀ k ∈ rest, k ∈ (tlmLoop B F st keys ret rest calls).2.2.1)
    ∧ (∀ k ∈ keys, k ∈ (tlmLoop B F st keys ret rest calls).2.2.1
        ∨ ((mapLookup (tlmLoop B F st keys ret rest calls).2.1 k).isSome
            ∧ (mapLookup (tlmLoop B F st keys ret rest calls).1.completed k).isSome)) := by
  intro keys
  induction keys with
  | nil =>
    intro st ret rest calls
    exact ⟨MonoS.refl _, MonoS.refl _, fun k hk => hk,
      fun k hk => absurd hk (List.not_mem_nil k)⟩
  | cons key ks ih =>
    intro st ret rest calls
    rw [tlmLoop_cons]
    obtain ⟨hc1, hr1, hrest1, hkey1⟩ := tlmStep_spec B F st key ret rest calls
    obtain ⟨hc2, hr2, hrest2, hkeys2⟩ :=
      ih (tlmStep B F st key ret rest calls).1 (tlmStep B F st key ret rest calls).2.1
        (tlmStep B F st key ret rest calls).2.2.1 (tlmStep B F st key ret rest calls).2.2.2
    refine ⟨hc1.trans hc2, hr1.trans hr2, fun k hk => hrest2 k (hrest1 k hk), ?_⟩
    intro k hk
    rcases List.mem_cons.mp hk with hk1 | hk2
    · subst hk1
      rcases hkey1 with hin | ⟨hsr, hsc⟩
      · exact Or.inl (hrest2 k hin)
      · exact Or.inr ⟨hr2 k hsr, hc2 k hsc⟩
    · exact hkeys2 k hk2

/-- `find?` for an unresolved key over the produced `rest` equals `find?`
over the pending accumulator followed by the requested keys, for any cache
extending the loop's final cache: keys the loop served are resolved there. -/
theorem tlmLoop_find [DecidableEq K] (B : Nat) (F : List K → List (K × V)) :
    ∀ (keys : List K) (st : CState K V) (ret : List (K × V)) (rest : List K)
      (calls : List (List K)) (cf : List (K × V)),
    MonoS (tlmLoop B F st keys ret rest calls).1.completed cf →
    (tlmLoop B F st keys ret rest calls).2.2.1.find?
        (fun k => (mapLookup cf k).isNone)
      = (rest ++ keys).find? (fun k => (mapLookup cf k).isNone) := by
  intro keys
  induction keys with
  | nil =>
    intro st ret rest calls cf _
    rw [List.append_nil]
    rfl
  | cons key ks ih =>
    intro st ret rest calls cf hmono
    rw [tlmLoop_cons] at hmono ⊢
    rcases tlmStep_cases B F st key ret rest calls with
      ⟨v, hlk, hs⟩ | ⟨_, _, hs⟩ | ⟨_, _, _, hs⟩ | ⟨_, _, _, hs⟩ <;> rw [hs] at hmono ⊢
    · have hsome : (mapLookup cf key).isSome := by
        refine hmono key ?_
        refine (tlmLoop_spec B F ks st (mapInsert ret key v) rest calls).1 key ?_
        rw [hlk]; rfl
      have hpred : (fun k => (mapLookup cf k).isNone) key = false := by
        simp only [Option.isNone]
        cases hlk2 : mapLookup cf key with
        | none => rw [hlk2] at hsome; exact absurd hsome (by simp)
        | some w => rfl
      rw [find?_append_cons_false key hpred rest ks]
      exact ih st (mapInsert ret key v) rest calls cf hmono
    · rw [show rest ++ key :: ks = (rest ++ [key]) ++ ks by
          rw [List.append_assoc]; rfl]
      exact ih st ret (rest ++ [key]) calls cf hmono
    · rw [show rest ++ key :: ks = (rest ++ [key]) ++ ks by
          rw [List.append_assoc]; rfl]
      exact ih _ ret (rest ++ [key]) (calls ++ [key :: st.pending]) cf hmono
    · rw [show rest ++ key :: ks = (rest ++ [key]) ++ ks by
          rw [List.append_assoc]; rfl]
      exact ih _ ret (rest ++ [key]) calls cf hmono

theorem collect_cons [DecidableEq K] (completed : List (K × V)) (k : K)
    (rs : List K) (ret : List (K × V)) :
    collect completed (k :: rs) ret
      = match mapLookup completed k with
        | none => Except.error k
        | some v => collect completed rs (mapInsert ret k v) := by
  conv_lhs => unfold collect

/-- The collection loop fails exactly on the first `rest` key unresolved in
the cache, naming that key. -/
theorem collect_error_iff [DecidableEq K] (completed : List (K × V)) :
    ∀ (rest : List K) (ret : List (K × V)) (e : K),
    collect completed rest ret = Except.error e
      ↔ rest.find? (fun k => (mapLookup completed k).isNone) = some e := by
  intro rest
  induction rest with
  | nil => intro ret e; simp [collect]
  | cons k rs ih =>
    intro ret e
    cases hlk : mapLookup completed k with
    | none =>
      rw [show collect completed (k :: rs) ret = Except.error k by
            rw [collect_cons, hlk],
          List.find?_cons_of_pos _ (by rw [hlk]; rfl)]
      constructor
      · intro hh
        cases hh
        rfl
      · intro hh
        cases hh
        rfl
    | some v =>
      rw [show collect completed (k :: rs) ret = collect completed rs (mapInsert ret k v) by
            rw [collect_cons, hlk],
          List.find?_cons_of_neg _ (by rw [hlk]; simp)]
      exact ih (mapInsert ret k v) e

/-- A successful collection extends the already-served map and resolves
every `rest` key in the returned map. -/
theorem collect_ok [DecidableEq K] (completed : List (K × V)) :
    ∀ (rest : List K) (ret m : List (K × V)),
    collect completed rest ret = Except.ok m →
    MonoS ret m ∧ ∀ k ∈ rest, (mapLookup m k).isSome := by
  intro rest
  induction rest with
  | nil =>
    intro ret m hcol
    have hm : ret = m := by
      simpa [collect, Except.ok.injEq] using hcol
    subst hm
    exact ⟨MonoS.refl _, fun k hk => absurd hk (List.not_mem_nil k)⟩
  | cons k rs ih =>
    intro ret m hcol
    cases hlk : mapLookup completed k with
    | none =>
      rw [show collect completed (k :: rs) ret = Except.error k by
            rw [collect_cons, hlk]] at hcol
      cases hcol
    | some v =>
      rw [show collect completed (k :: rs) ret = collect completed rs (mapInsert ret k v) by
            rw [collect_cons, hlk]] at hcol
      obtain ⟨hmono, hall⟩ := ih (mapInsert ret k v) m hcol
      refine ⟨(MonoS.insert ret k v).trans hmono, ?_⟩
      intro q hq
      rcases List.mem_cons.mp hq with hq1 | hq2
      · subst hq1
        refine hmono q ?_
        rw [mapLookup_mapInsert, if_pos rfl]; rfl
      · exact hall q hq2

/-- Shape of `try_load_many`: its result is `Ok ret` when `rest` is empty
and a collection over the final cache otherwise, and the final cache
extends the loop's cache. -/
theorem tryLoadMany_eq [DecidableEq K] (B : Nat) (F : List K → List (K × V))
    (st : CState K V) (keys : List K) :
    ((tryLoadMany B F st keys).1
      = if (tlmLoop B F st keys [] [] []).2.2.1.isEmpty
        then Except.ok (tlmLoop B F st keys [] [] []).2.1
        else collect (tryLoadMany B F st keys).2.1.completed
              (tlmLoop B F st keys [] [] []).2.2.1
              (tlmLoop B F st keys [] [] []).2.1)
    ∧ MonoS (tlmLoop B F st keys [] [] []).1.completed
        (tryLoadMany B F st keys).2.1.completed := by
  unfold tryLoadMany
  simp only []
  cases hre : (tlmLoop B F st keys [] [] []).2.2.1.isEmpty with
  | true => exact ⟨rfl, MonoS.refl _⟩
  | false =>
    cases hpe : (tlmLoop B F st keys [] [] []).1.pending.isEmpty with
    | true => exact ⟨rfl, MonoS.refl _⟩
    | false => exact ⟨rfl, MonoS.insertAll _ _⟩

/-- **C7.** Sequential `try_load_many(keys)` fails as a whole exactly when
some requested key is still unresolved in the cache after the post-wait
dispatch, and the `NotFound` error then names the *first* such requested
key (first-miss policy); when every requested key is resolved it returns
`Ok` with a map binding all requested keys. -/
theorem tryLoadMany_firstMiss [DecidableEq K] (B : Nat) (F : List K → List (K × V))
    (st : CState K V) (keys : List K) :
    (∀ e : K, (tryLoadMany B F st keys).1 = Except.error e
        ↔ keys.find?
            (fun k => (mapLookup (tryLoadMany B F st keys).2.1.completed k).isNone)
            = some e)
    ∧ ((∀ k ∈ keys, (mapLookup (tryLoadMany B F st keys).2.1.completed k).isSome) →
        ∃ m, (tryLoadMany B F st keys).1 = Except.ok m
          ∧ ∀ k ∈ keys, (mapLookup m k).isSome) := by
  obtain ⟨heq, hmono⟩ := tryLoadMany_eq B F st keys
  have hfind := tlmLoop_find B F keys st [] [] []
    (tryLoadMany B F st keys).2.1.completed hmono
  rw [List.nil_append] at hfind
  obtain ⟨hcmono, hrmono, _, hcover⟩ := tlmLoop_spec B F keys st [] [] []
  cases hre : (tlmLoop B F st keys [] [] []).2.2.1.isEmpty with
  | true =>
    rw [hre, if_pos rfl] at heq
    have hrnil : (tlmLoop B F st keys [] [] []).2.2.1 = [] := List.isEmpty_iff.mp hre
    rw [hrnil, List.find?_nil] at hfind
    constructor
    · intro e
      constructor
      · intro hh
        rw [heq] at hh
        cases hh
      · intro hh
        rw [hh] at hfind
        cases hfind
    · intro _
      refine ⟨(tlmLoop B F st keys [] [] []).2.1, heq, ?_⟩
      intro k hk
      rcases hcover k hk with hin | ⟨hsr, _⟩
      · rw [hrnil] at hin
        exact absurd hin (List.not_mem_nil k)
      · exact hsr
  | false =>
    rw [hre, if_neg (by simp)] at heq
    constructor
    · intro e
      rw [heq, collect_error_iff, hfind]
    · intro hall
      have hnone : keys.find?
          (fun k => (mapLookup (tryLoadMany B F st keys).2.1.completed k).isNone) = none := by
        rw [List.find?_eq_none]
        intro k hk hpk
        have := hall k hk
        cases hcf : mapLookup (tryLoadMany B F st keys).2.1.completed k with
        | none => rw [hcf] at this; exact absurd this (by simp)
        | some w => rw [hcf] at hpk; exact absurd hpk (by simp)
      rw [← hfind] at hnone
      cases hcol : collect (tryLoadMany B F st keys).2.1.completed
          (tlmLoop B F st keys [] [] []).2.2.1 (tlmLoop B F st keys [] [] []).2.1 with
      | error e =>
        rw [(collect_error_iff _ _ _ _).mp hcol] at hnone
        cases hnone
      | ok m =>
        obtain ⟨hmm, hallrest⟩ := collect_ok _ _ _ _ hcol
        refine ⟨m, by rw [heq, hcol], ?_⟩
        intro k hk
        rcases hcover k hk with hin | ⟨hsr, _⟩
        · exact hallrest k hin
        · exact hmm k hsr

/-- Witness for C7 at a concrete input: with an identity batch function for
even keys only, `try_load_many [2, 5, 7]` fails naming `5`, the first
unresolved requested key. -/
theorem tryLoadMany_firstMiss_witness :
    (tryLoadMany 10 (fun ks => (ks.filter (fun k => k % 2 == 0)).map fun k => (k, k))
        (CState.mk ([] : List (Nat × Nat)) []) [2, 5, 7]).1 = Except.error 5 :=
  ((tryLoadMany_firstMiss 10
      (fun ks => (ks.filter (fun k => k % 2 == 0)).map fun k => (k, k))
      (CState.mk ([] : List (Nat × Nat)) []) [2, 5, 7]).1 5).mpr (by decide)

end Dataloader
